import Mathlib

/-!
# Trusted-application key loading (`mtp/mtpz/TrustedApp.cpp`)

A shallow embedding of `TrustedApp::Keys`, `TrustedApp::LoadKeys`,
`TrustedApp::Probe` and `TrustedApp::Authenticate` (the `MTPZ_ENABLED` branch).

* Characters of the credential file are `Char`; a C string is the list of its
  characters without the terminating NUL.
* Native resources (the file `BIO`, every `BIGNUM`, the `RSA` object) live in an
  explicit `World`: a supply of fresh addresses and a trace of allocation and
  release events, most recent first.
* A C++ exception is a returned message; functions that mutate an object return
  the object in the state it has when they return or throw.
* The libc and OpenSSL routines the code calls (`fgets` behind `BIO_gets`,
  `isspace`, `BN_hex2bn`, `OPENSSL_hexstr2buf`, `RSA_set0_key`, `RSA_free`) are
  modelled after their behaviour in OpenSSL 1.1 and later, the releases that
  provide `RSA_set0_key`.
* Allocation failure (`RSA_new`, `BN_new`, `make_shared` returning null or
  throwing) is not modelled.
-/

namespace mtp

/-! ## Resources -/

/-- Allocation and release events of the native resources. -/
inductive Event where
  | BIO_new (h : Nat)
  | BIO_free (h : Nat)
  | BN_new (a : Nat)
  | BN_free (a : Nat)
  | RSA_new (a : Nat)
  | RSA_free (a : Nat)
  deriving DecidableEq

/-- The resource state: next fresh address and the event trace (newest first). -/
structure World where
  next : Nat
  trace : List Event
  deriving DecidableEq

/-- Record an event. -/
def World.emit (w : World) (e : Event) : World :=
  { w with trace := e :: w.trace }

/-- Hand out a fresh address. -/
def World.fresh (w : World) : Nat × World :=
  (w.next, { w with next := w.next + 1 })

/-- A `BIGNUM *` that is not null: the address of the object and its value. -/
structure BIGNUM where
  addr : Nat
  val : Int
  deriving DecidableEq

/-- OpenSSL `BN_new`. -/
def BN_new (w : World) : BIGNUM × World :=
  let (a, w) := w.fresh
  (⟨a, 0⟩, w.emit (.BN_new a))

/-- OpenSSL `BN_free` (and `BN_clear_free`): a null pointer is ignored. -/
def BN_free (p : Option BIGNUM) (w : World) : World :=
  match p with
  | none => w
  | some b => w.emit (.BN_free b.addr)

/-- An `RSA` object: its address and the three components `RSA_set0_key` sets. -/
structure RSA where
  addr : Nat
  n : Option BIGNUM
  e : Option BIGNUM
  d : Option BIGNUM
  deriving DecidableEq

/-- OpenSSL `RSA_new`: a key object with every component null. -/
def RSA_new (w : World) : RSA × World :=
  let (a, w) := w.fresh
  (⟨a, none, none, none⟩, w.emit (.RSA_new a))

/-- OpenSSL `RSA_free` of an object with reference count one: releases the
components it owns, then the object. -/
def RSA_free (r : RSA) (w : World) : World :=
  let w := BN_free r.n w
  let w := BN_free r.e w
  let w := BN_free r.d w
  w.emit (.RSA_free r.addr)

/-- OpenSSL `RSA_set0_key(r, n, e, d)`: returns 0 and changes nothing when `n`
or `e` would stay unset; otherwise every non-null argument replaces the
component (the old one is released) and the call returns 1. -/
def RSA_set0_key (r : RSA) (n e d : Option BIGNUM) (w : World) : Nat × RSA × World :=
  if (r.n = none ∧ n = none) ∨ (r.e = none ∧ e = none) then (0, r, w)
  else
    let (r, w) := match n with
      | some _ => ({ r with n := n }, BN_free r.n w)
      | none => (r, w)
    let (r, w) := match e with
      | some _ => ({ r with e := e }, BN_free r.e w)
      | none => (r, w)
    let (r, w) := match d with
      | some _ => ({ r with d := d }, BN_free r.d w)
      | none => (r, w)
    (1, r, w)

/-! ## Character classes and hexadecimal decoding (libc / OpenSSL) -/

/-- The NUL character that ends a C string. -/
def NUL : Char := Char.ofNat 0

/-- C `isspace` in the "C" locale: space, and `\t \n \v \f \r`. -/
def isspace (c : Char) : Bool :=
  c.toNat = 32 || (9 ≤ c.toNat && c.toNat ≤ 13)

/-- C `isxdigit`. -/
def isxdigit (c : Char) : Bool :=
  (48 ≤ c.toNat && c.toNat ≤ 57) || (97 ≤ c.toNat && c.toNat ≤ 102) ||
    (65 ≤ c.toNat && c.toNat ≤ 70)

/-- OpenSSL `OPENSSL_hexchar2int`: the value of a hex digit, `none` for -1. -/
def OPENSSL_hexchar2int (c : Char) : Option Nat :=
  if 48 ≤ c.toNat ∧ c.toNat ≤ 57 then some (c.toNat - 48)
  else if 97 ≤ c.toNat ∧ c.toNat ≤ 102 then some (c.toNat - 87)
  else if 65 ≤ c.toNat ∧ c.toNat ≤ 70 then some (c.toNat - 55)
  else none

/-- The decoding loop of `OPENSSL_hexstr2buf`: a `:` is skipped, any other
character must be followed by a second one and both must be hex digits. -/
def hexstr2bufLoop : List Char → Option (List Nat)
  | [] => some []
  | [ch] => if ch = ':' then some [] else none
  | ch :: cl :: p =>
    if ch = ':' then hexstr2bufLoop (cl :: p)
    else
      match OPENSSL_hexchar2int cl, OPENSSL_hexchar2int ch with
      | some cli, some chi =>
        match hexstr2bufLoop p with
        | some q => some ((16 * chi + cli) :: q)
        | none => none
      | _, _ => none

/-- OpenSSL `OPENSSL_hexstr2buf`: `none` is the null result. The output buffer
has `strlen(str) >> 1` bytes and a request for zero bytes yields null (in
OpenSSL 3 the same strings are rejected as too short). -/
def OPENSSL_hexstr2buf (str : List Char) : Option (List Nat) :=
  if str.length / 2 = 0 then none else hexstr2bufLoop str

/-- The constant `INT_MAX / 4` of `BN_hex2bn`. -/
def INT_MAX_DIV_4 : Nat := 536870911

/-- The digits accumulated by `BN_hex2bn`, most significant first; a character
that is no digit counts as 0. -/
def bnAccumulate (digits : List Char) : Nat :=
  digits.foldl (fun l c => 16 * l + (OPENSSL_hexchar2int c).getD 0) 0

/-- OpenSSL `BN_hex2bn(&bn, a)`: an optional `-`, then the longest run of hex
digits. Returns the number of characters used, 0 on failure; on success `bn`
holds the value (a fresh `BIGNUM` when it was null). -/
def BN_hex2bn (bn : Option BIGNUM) (a : List Char) (w : World) :
    Nat × Option BIGNUM × World :=
  match a with
  | [] => (0, bn, w)
  | c :: rest =>
    let neg : Nat := if c = '-' then 1 else 0
    let a := if c = '-' then rest else c :: rest
    let i := (a.takeWhile isxdigit).length
    if i = 0 ∨ i > INT_MAX_DIV_4 then (0, bn, w)
    else
      let (ret, w) := match bn with
        | none => BN_new w
        | some b => (b, w)
      let v : Int := bnAccumulate (a.take i)
      let ret := { ret with val := if neg = 1 then -v else v }
      (i + neg, some ret, w)

/-! ## The file BIO -/

/-- A file `BIO *` that is not null: its address and the unread rest of the file. -/
structure BIO where
  handle : Nat
  unread : List Char
  deriving DecidableEq

/-- OpenSSL `BIO_new_file(path, "rt")` on a file system that maps a path to the
content of the file, `none` when it cannot be opened. -/
def BIO_new_file (fs : String → Option (List Char)) (path : String) (w : World) :
    Option BIO × World :=
  match fs path with
  | none => (none, w)
  | some content =>
    let (h, w) := w.fresh
    (some ⟨h, content⟩, w.emit (.BIO_new h))

/-- OpenSSL `BIO_free`. -/
def BIO_free (b : BIO) (w : World) : World :=
  w.emit (.BIO_free b.handle)

/-- C `fgets` reading at most `n` characters: stops after a newline or at end
of file. Returns the characters read and the rest of the file. -/
def fgets : Nat → List Char → List Char × List Char
  | 0, rest => ([], rest)
  | _ + 1, [] => ([], [])
  | n + 1, c :: rest =>
    if c = '\n' then ([c], rest)
    else
      let (l, r) := fgets n rest
      (c :: l, r)

/-- OpenSSL `BIO_gets` on a file BIO (`file_gets`): `buf[0] = 0`, then `fgets`
with room for `size - 1` characters, and the result is `strlen(buf)`. Returns
the length, the buffer as a C string, and the BIO after the read. -/
def BIO_gets (b : BIO) (size : Nat) : Nat × List Char × BIO :=
  let (chunk, rest) := fgets (size - 1) b.unread
  let buf := chunk.takeWhile (fun c => c ≠ NUL)
  (buf.length, buf, { b with unread := rest })

/-! ## `TrustedApp::Keys` -/

/-- The struct `TrustedApp::Keys`. -/
structure Keys where
  skey : List Nat
  exp : Option BIGNUM
  mod : Option BIGNUM
  pkey : Option BIGNUM
  rsa : RSA
  certificate : List Nat
  deriving DecidableEq

namespace Keys

/-- The constructor `Keys()`. -/
def new (w : World) : Keys × World :=
  let (rsa, w) := RSA_new w
  (⟨[], none, none, none, rsa, []⟩, w)

/-- The method `Keys::Update()`: `none` on return, the message when it throws. -/
def Update (k : Keys) (w : World) : Option String × Keys × World :=
  let (rc, rsa, w) := RSA_set0_key k.rsa k.mod k.exp k.pkey w
  let k := { k with rsa := rsa }
  if rc ≠ 0 then
    (none, { k with mod := none, exp := none, pkey := none }, w)
  else
    (some "failed to create RSA key", k, w)

/-- The destructor `~Keys()`. -/
def destroy (k : Keys) (w : World) : World :=
  let w := if k.exp.isSome then BN_free k.exp w else w
  let w := if k.mod.isSome then BN_free k.mod w else w
  let w := if k.pkey.isSome then BN_free k.pkey w else w
  RSA_free k.rsa w

/-- The loop `while (bufsize > 0 && isspace(buf[bufsize - 1])) --bufsize`. -/
def stripLen (buf : List Char) : Nat → Nat
  | 0 => 0
  | n + 1 =>
    match buf[n]? with
    | some c => if isspace c then stripLen buf n else n + 1
    | none => n + 1

/-- The static method `Keys::FromHex(buf, bufsize)`. -/
def FromHex (buf : List Char) (bufsize : Nat) : Except String (List Nat) :=
  let bufsize := stripLen buf bufsize
  let buf := buf.take bufsize
  match OPENSSL_hexstr2buf buf with
  | none => .error "hex decoding failed"
  | some data => .ok data

end Keys

/-! ## `TrustedApp::LoadKeys` -/

/-- The `try` block of `LoadKeys`: `none` when it completes, the message when
it throws, together with the key object, the BIO and the world at that point. -/
def LoadKeys.body (bio : BIO) (keys : Keys) (w : World) :
    Option String × Keys × BIO × World :=
  -- public exp
  let (_, buf, bio) := BIO_gets bio 4096
  let (rc, exp, w) := BN_hex2bn keys.exp buf w
  let keys := { keys with exp := exp }
  if rc ≤ 0 then (some "can't read public exponent", keys, bio, w)
  else
    -- session key
    let (r, buf, bio) := BIO_gets bio 4096
    if r ≤ 0 then (some "BIO_gets: short read", keys, bio, w)
    else
      match Keys.FromHex buf r with
      | .error msg => (some msg, keys, bio, w)
      | .ok skey =>
        let keys := { keys with skey := skey }
        -- public mod
        let (_, buf, bio) := BIO_gets bio 4096
        let (rc, mod, w) := BN_hex2bn keys.mod buf w
        let keys := { keys with mod := mod }
        if rc ≤ 0 then (some "can't read public modulus", keys, bio, w)
        else
          -- private exponent
          let (_, buf, bio) := BIO_gets bio 4096
          let (rc, pkey, w) := BN_hex2bn keys.pkey buf w
          let keys := { keys with pkey := pkey }
          if rc ≤ 0 then (some "can't read private key", keys, bio, w)
          else
            let (r, buf, bio) := BIO_gets bio 4096
            if r ≤ 0 then (some "BIO_gets: short read", keys, bio, w)
            else
              match Keys.FromHex buf r with
              | .error msg => (some msg, keys, bio, w)
              | .ok cert => (none, { keys with certificate := cert }, bio, w)

/-- The function `TrustedApp::LoadKeys(path)`: `.ok none` is the null pointer,
`.ok (some keys)` the loaded keys, `.error msg` a thrown exception. When an
exception leaves the function the last reference to the key object goes and
its destructor runs. -/
def LoadKeys (fs : String → Option (List Char)) (path : String) (w : World) :
    Except String (Option Keys) × World :=
  match BIO_new_file fs path w with
  | (none, w) => (.ok none, w)
  | (some bio, w) =>
    let (keys, w) := Keys.new w
    match LoadKeys.body bio keys w with
    | (some msg, keys, bio, w) =>
      let w := BIO_free bio w
      (.error msg, keys.destroy w)
    | (none, keys, bio, w) =>
      let w := BIO_free bio w
      match keys.Update w with
      | (some msg, keys, w) => (.error msg, keys.destroy w)
      | (none, keys, w) => (.ok (some keys), w)

/-! ## `TrustedApp`, `Probe`, `Authenticate` -/

/-- Modelled from the spec: the enumeration `OperationCode` is declared in a
header outside the sources at hand. The five members named by `Probe` are kept;
every other member is `Other code`. -/
inductive OperationCode where
  | SendWMDRMPDAppRequest
  | GetWMDRMPDAppResponse
  | EnableTrustedFilesOperations
  | DisableTrustedFilesOperations
  | EndTrustedAppSession
  | Other (code : Nat)
  deriving DecidableEq

/-- Modelled from the spec: the device information of a session, "a predicate
is operation X supported". -/
structure DeviceInfo where
  Supports : OperationCode → Bool

/-- Modelled from the spec: the external protocol session. It reports the
device information, has the class constant `DefaultTimeout`, and executes
transactions: `transactions` lists the ones issued so far (newest first) and
`fails` tells whether the device makes a transaction throw, given the list
with that transaction on it. -/
structure Session where
  deviceInfo : DeviceInfo
  DefaultTimeout : Nat
  transactions : List (Nat × OperationCode)
  fails : List (Nat × OperationCode) → Bool

/-- Modelled from the spec: `Session::RunTransaction(timeout, code)` issues one
transaction and either completes or throws. -/
def Session.RunTransaction (s : Session) (timeout : Nat) (code : OperationCode) :
    Except String Unit × Session :=
  let issued := (timeout, code) :: s.transactions
  let s := { s with transactions := issued }
  if s.fails issued then (.error "transaction failed", s) else (.ok (), s)

/-- The class `TrustedApp`: the session and the key pointer. -/
structure TrustedApp where
  session : Session
  keys : Option Keys

/-- The constructor `TrustedApp(session, mtpzDataPath)`. -/
def TrustedApp.new (session : Session) (fs : String → Option (List Char))
    (mtpzDataPath : String) (w : World) : Except String TrustedApp × World :=
  match LoadKeys fs mtpzDataPath w with
  | (.ok keys, w) => (.ok ⟨session, keys⟩, w)
  | (.error msg, w) => (.error msg, w)

/-- The function `TrustedApp::Probe(session)`. -/
def Probe (session : Session) : Bool :=
  let di := session.deviceInfo
  let supported :=
    di.Supports .SendWMDRMPDAppRequest &&
    di.Supports .GetWMDRMPDAppResponse &&
    di.Supports .EnableTrustedFilesOperations &&
    di.Supports .DisableTrustedFilesOperations &&
    di.Supports .EndTrustedAppSession
  supported

/-- The method `TrustedApp::Authenticate()`: the returned value or the
exception of the transaction, and the object afterwards. -/
def Authenticate (app : TrustedApp) : Except String Bool × TrustedApp :=
  match app.session.RunTransaction app.session.DefaultTimeout .EndTrustedAppSession with
  | (.error msg, s) => (.error msg, { app with session := s })
  | (.ok _, s) => (.ok false, { app with session := s })

/-! ## Derived notions used to state the properties -/

/-- The C string held by a buffer that `fgets` filled with `chunk`. -/
def cstr (chunk : List Char) : List Char := chunk.takeWhile (fun c => c ≠ NUL)

/-- The unread rest of a file after `k` reads with the 4096 byte buffer. -/
def unreadAfter : Nat → List Char → List Char
  | 0, s => s
  | k + 1, s => unreadAfter k (fgets 4095 s).2

/-- The buffer of `LoadKeys` after read number `k + 1`. -/
def bufAt (k : Nat) (content : List Char) : List Char :=
  cstr (fgets 4095 (unreadAfter k content)).1

/-- What `BN_hex2bn` makes of a buffer: characters used and value. -/
def hexIntParse (a : List Char) : Option (Nat × Int) :=
  match a with
  | [] => none
  | c :: rest =>
    let body := if c = '-' then rest else c :: rest
    let i := (body.takeWhile isxdigit).length
    if i = 0 ∨ i > INT_MAX_DIV_4 then none
    else
      let v : Int := bnAccumulate (body.take i)
      some (i + (if c = '-' then 1 else 0), if c = '-' then -v else v)

/-- The value an integer line is read as, `none` when the read throws. -/
def readInt (buf : List Char) : Option Int := (hexIntParse buf).map Prod.snd

/-- The bytes a byte line is read as, `none` when the read throws. -/
def readBytes (buf : List Char) : Option (List Nat) :=
  if buf.length ≤ 0 then none else (Keys.FromHex buf buf.length).toOption

/-- A line that, with its newline and the terminating NUL, fits the 4096 byte
buffer of `LoadKeys`. -/
def FitsBuffer (l : List Char) : Prop := '\n' ∉ l ∧ l.length + 2 ≤ 4096

instance (l : List Char) : Decidable (FitsBuffer l) := by
  unfold FitsBuffer; infer_instance

/-- A file of five lines `l1` to `l5`; `tail` is what follows the fifth line,
nothing or a newline and the rest of the file. -/
def fiveLines (l1 l2 l3 l4 l5 tail : List Char) : List Char :=
  l1 ++ '\n' :: (l2 ++ '\n' :: (l3 ++ '\n' :: (l4 ++ '\n' :: (l5 ++ tail))))

/-- What may follow a line: the end of the file, or a newline and more. -/
def LineEnd (tail : List Char) : Prop := tail = [] ∨ tail.head? = some '\n'

instance (tail : List Char) : Decidable (LineEnd tail) := by
  unfold LineEnd; infer_instance

/-- A file made of newline-terminated lines and a last line without newline
(`last = []` when the file ends with a newline or is empty). -/
def fileOfLines (lines : List (List Char)) (last : List Char) : List Char :=
  (lines.map (fun l => l ++ ['\n'])).flatten ++ last

/-- The value of a hex digit as the position in the digit alphabet. -/
def hexDigitValue (c : Char) : Nat :=
  "0123456789abcdef".toList.indexOf c.toLower

/-- The value of a hexadecimal numeral, most significant digit first. -/
def hexNumeralValue : List Char → Nat
  | [] => 0
  | c :: rest => hexDigitValue c * 16 ^ rest.length + hexNumeralValue rest

/-- The bytes a hex string encodes, two digits per byte. -/
def hexBytes : List Char → List Nat
  | hi :: lo :: rest => (hexDigitValue hi * 16 + hexDigitValue lo) :: hexBytes rest
  | _ => []

/-- A string of hex digits only. -/
def IsHexString (l : List Char) : Prop := ∀ c ∈ l, isxdigit c = true

instance (l : List Char) : Decidable (IsHexString l) := by
  unfold IsHexString; infer_instance

/-- A line that, once its trailing white space is removed, is an odd number of
hex digits. -/
def OddHexLine (l : List Char) : Prop :=
  IsHexString (l.rdropWhile isspace) ∧ (l.rdropWhile isspace).length % 2 = 1

instance (l : List Char) : Decidable (OddHexLine l) := by
  unfold OddHexLine; infer_instance

/-- A line that starts with a hex digit, after at most one `-`. -/
def startsHexNumeral : List Char → Bool
  | [] => false
  | c :: rest =>
    if c = '-' then
      match rest with
      | [] => false
      | x :: _ => isxdigit x
    else isxdigit c

/-- The `BIO` events of a trace. -/
def bioEvents (t : List Event) : List Event :=
  t.filter fun e =>
    match e with
    | .BIO_new _ => true
    | .BIO_free _ => true
    | _ => false

/-- The number of times the `BIGNUM` at address `a` was released. -/
def releases (a : Nat) (w : World) : Nat := w.trace.count (.BN_free a)

/-- A number of calls of `Update`, exceptions caught by the caller. -/
def Keys.updates : Nat → Keys → World → Keys × World
  | 0, k, w => (k, w)
  | j + 1, k, w =>
    let (_, k, w) := k.Update w
    Keys.updates j k w

/-- Two unread rests that differ only in the white space at the end of one
line that is still to be read: `x1` and `x2` are the two versions of the file
from that line on. -/
def SameUpToSpace (x1 x2 s1 s2 : List Char) : Prop :=
  s1 = s2 ∨ (s1 = x1 ∧ s2 = x2) ∨ ∃ p, s1 = p ++ '\n' :: x1 ∧ s2 = p ++ '\n' :: x2

/-- The addresses of the `BIGNUM`s a `Keys` object holds, in its own slots and
in its key object. -/
def Keys.owned (k : Keys) : List Nat :=
  (k.exp.toList ++ k.mod.toList ++ k.pkey.toList ++ k.rsa.n.toList ++ k.rsa.e.toList ++
    k.rsa.d.toList).map BIGNUM.addr

/-! ## Lemmas -/

theorem BN_hex2bn_none (a : List Char) (w : World) :
    BN_hex2bn none a w =
      match hexIntParse a with
      | none => (0, none, w)
      | some (k, v) => (k, some ⟨w.next, v⟩, ⟨w.next + 1, .BN_new w.next :: w.trace⟩) := by
  cases a with
  | nil => rfl
  | cons c rest =>
    by_cases hc : c = '-'
    · simp only [BN_hex2bn, hexIntParse, hc, if_true]
      split_ifs with hi
      · rfl
      · simp [BN_new, World.fresh, World.emit]
    · simp only [BN_hex2bn, hexIntParse, hc, if_false]
      split_ifs with hi hx
      · rfl
      · exact absurd hx (by simp)
      · simp [BN_new, World.fresh, World.emit]

theorem hexIntParse_pos {a : List Char} {k : Nat} {v : Int} (h : hexIntParse a = some (k, v)) :
    0 < k := by
  cases a with
  | nil => simp [hexIntParse] at h
  | cons c rest =>
    simp only [hexIntParse] at h
    split_ifs at h <;> simp at h <;> omega

/-- The outcome of `LoadKeys` on a file that opens, in terms of the five buffers. -/
theorem LoadKeys_obs (fs : String → Option (List Char)) (path : String) (w : World)
    (content : List Char) (hfs : fs path = some content) :
    (LoadKeys fs path w).1.toOption =
      (readInt (bufAt 0 content)).bind fun e =>
      (readBytes (bufAt 1 content)).bind fun sk =>
      (readInt (bufAt 2 content)).bind fun n =>
      (readInt (bufAt 3 content)).bind fun d =>
      (readBytes (bufAt 4 content)).bind fun cert =>
        some (some ⟨sk, none, none, none,
          ⟨w.next + 1, some ⟨w.next + 3, n⟩, some ⟨w.next + 2, e⟩, some ⟨w.next + 4, d⟩⟩, cert⟩) := by
  simp only [LoadKeys, BIO_new_file, hfs, World.fresh, World.emit, Keys.new, RSA_new,
    LoadKeys.body, BIO_gets, readInt, readBytes, bufAt, unreadAfter, cstr, Nat.reduceSub]
  generalize List.takeWhile (fun c => decide (c ≠ NUL)) (fgets 4095 content).1 = b1
  generalize List.takeWhile (fun c => decide (c ≠ NUL))
    (fgets 4095 (fgets 4095 content).2).1 = b2
  generalize List.takeWhile (fun c => decide (c ≠ NUL))
    (fgets 4095 (fgets 4095 (fgets 4095 content).2).2).1 = b3
  generalize List.takeWhile (fun c => decide (c ≠ NUL))
    (fgets 4095 (fgets 4095 (fgets 4095 (fgets 4095 content).2).2).2).1 = b4
  generalize List.takeWhile (fun c => decide (c ≠ NUL))
    (fgets 4095 (fgets 4095 (fgets 4095 (fgets 4095 (fgets 4095 content).2).2).2).2).1 = b5
  rw [BN_hex2bn_none]
  cases h1 : hexIntParse b1 with
  | none => simp [Except.toOption]
  | some kv =>
    obtain ⟨k, v⟩ := kv
    have hk := hexIntParse_pos h1
    simp only [Option.map_some', Option.some_bind, Nat.le_zero, Nat.ne_of_gt hk, if_false]
    by_cases h2 : b2.length = 0
    · simp [h2, Except.toOption]
    · simp only [h2, if_false]
      cases h2b : Keys.FromHex b2 b2.length with
      | error m => simp [Except.toOption]
      | ok sk =>
        simp only [Except.toOption, Option.some_bind]
        rw [BN_hex2bn_none]
        cases h3 : hexIntParse b3 with
        | none => simp [Keys.destroy]
        | some kv3 =>
          obtain ⟨k3, v3⟩ := kv3
          have hk3 := hexIntParse_pos h3
          simp only [Option.map_some', Option.some_bind, Nat.ne_of_gt hk3, if_false]
          rw [BN_hex2bn_none]
          cases h4 : hexIntParse b4 with
          | none => simp [Keys.destroy]
          | some kv4 =>
            obtain ⟨k4, v4⟩ := kv4
            have hk4 := hexIntParse_pos h4
            simp only [Option.map_some', Option.some_bind, Nat.ne_of_gt hk4, if_false]
            by_cases h5 : b5.length = 0
            · simp [h5]
            · simp only [h5, if_false]
              cases h5b : Keys.FromHex b5 b5.length with
              | error m => simp
              | ok cert =>
                simp [Keys.Update, RSA_set0_key, BN_free, BIO_free, World.emit]

/-! ### Characters -/

theorem isxdigit_ne_newline {c : Char} (h : isxdigit c = true) : c ≠ '\n' := by
  rintro rfl; revert h; decide

theorem isxdigit_ne_NUL {c : Char} (h : isxdigit c = true) : c ≠ NUL := by
  rintro rfl; revert h; decide

theorem isxdigit_ne_colon {c : Char} (h : isxdigit c = true) : c ≠ ':' := by
  rintro rfl; revert h; decide

theorem isxdigit_ne_minus {c : Char} (h : isxdigit c = true) : c ≠ '-' := by
  rintro rfl; revert h; decide

theorem isspace_not_xdigit {c : Char} (h : isspace c = true) : isxdigit c = false := by
  simp only [isspace, isxdigit, Bool.or_eq_true, Bool.and_eq_true, decide_eq_true_eq] at h
  simp only [isxdigit, Bool.or_eq_false_iff, Bool.and_eq_false_iff, decide_eq_false_iff_not]
  omega

theorem isxdigit_not_space {c : Char} (h : isxdigit c = true) : isspace c = false := by
  cases hs : isspace c with
  | false => rfl
  | true => rw [isspace_not_xdigit hs] at h; cases h

theorem isspace_ne_NUL {c : Char} (h : isspace c = true) : c ≠ NUL := by
  rintro rfl; revert h; decide

theorem isspace_ne_minus {c : Char} (h : isspace c = true) : c ≠ '-' := by
  rintro rfl; revert h; decide

theorem isspace_newline : isspace '\n' = true := by decide

theorem hexchar2int_of_isxdigit {c : Char} (h : isxdigit c = true) :
    OPENSSL_hexchar2int c = some (hexDigitValue c) := by
  have hc : c = Char.ofNat c.toNat := (Char.ofNat_toNat c).symm
  simp only [isxdigit, Bool.or_eq_true, Bool.and_eq_true, decide_eq_true_eq] at h
  have hr : (48 ≤ c.toNat ∧ c.toNat ≤ 57) ∨ (97 ≤ c.toNat ∧ c.toNat ≤ 102) ∨
      (65 ≤ c.toNat ∧ c.toNat ≤ 70) := by omega
  rcases hr with ⟨h1, h2⟩ | ⟨h1, h2⟩ | ⟨h1, h2⟩ <;>
    · generalize c.toNat = n at hc h1 h2
      subst hc
      interval_cases n <;> decide

/-! ### Reading lines -/

theorem fgets_line (n : Nat) (l rest : List Char) (hnl : '\n' ∉ l) (hlen : l.length < n) :
    fgets n (l ++ '\n' :: rest) = (l ++ ['\n'], rest) := by
  induction l generalizing n with
  | nil =>
    cases n with
    | zero => simp at hlen
    | succ n => simp [fgets]
  | cons c l ih =>
    cases n with
    | zero => simp at hlen
    | succ n =>
      have hc : c ≠ '\n' := fun h => hnl (by simp [h])
      have hl : '\n' ∉ l := fun h => hnl (by simp [h])
      simp only [List.length_cons, Nat.add_lt_add_iff_right] at hlen
      simp [fgets, hc, ih n hl hlen]

theorem fgets_last (n : Nat) (l : List Char) (hnl : '\n' ∉ l) (hlen : l.length ≤ n) :
    fgets n l = (l, []) := by
  induction l generalizing n with
  | nil => cases n <;> simp [fgets]
  | cons c l ih =>
    cases n with
    | zero => simp at hlen
    | succ n =>
      have hc : c ≠ '\n' := fun h => hnl (by simp [h])
      have hl : '\n' ∉ l := fun h => hnl (by simp [h])
      simp only [List.length_cons, Nat.add_le_add_iff_right] at hlen
      simp [fgets, hc, ih n hl hlen]

theorem fgets_full (n : Nat) (l rest : List Char) (hnl : '\n' ∉ l) (hlen : l.length = n) :
    fgets n (l ++ rest) = (l, rest) := by
  induction l generalizing n with
  | nil => subst hlen; simp [fgets]
  | cons c l ih =>
    cases n with
    | zero => simp at hlen
    | succ n =>
      have hc : c ≠ '\n' := fun h => hnl (by simp [h])
      have hl : '\n' ∉ l := fun h => hnl (by simp [h])
      simp only [List.length_cons, Nat.add_right_cancel_iff] at hlen
      simp [fgets, hc, ih n hl hlen]

theorem fgets_nil (n : Nat) : fgets n [] = ([], []) := by
  cases n <;> rfl

theorem fgets_length_le (n : Nat) (s : List Char) : (fgets n s).1.length ≤ n := by
  induction s generalizing n with
  | nil => cases n <;> simp [fgets]
  | cons c s ih =>
    cases n with
    | zero => simp [fgets]
    | succ n =>
      by_cases hc : c = '\n'
      · simp [fgets, hc]
      · simpa [fgets, hc] using ih n

/-- A read never runs past a newline: in front of any continuation `x`, a
piece that ends with a newline is read the same way. -/
theorem fgets_append_newline (n : Nat) (p x : List Char) :
    fgets n (p ++ '\n' :: x) =
      ((fgets n (p ++ ['\n'])).1, (fgets n (p ++ ['\n'])).2 ++ x) ∧
      ((fgets n (p ++ ['\n'])).2 = [] ∨ ∃ q, (fgets n (p ++ ['\n'])).2 = q ++ ['\n']) := by
  induction p generalizing n with
  | nil =>
    cases n with
    | zero => exact ⟨by simp [fgets], Or.inr ⟨[], by simp [fgets]⟩⟩
    | succ n => simp [fgets]
  | cons c p ih =>
    cases n with
    | zero => exact ⟨by simp [fgets], Or.inr ⟨c :: p, by simp [fgets]⟩⟩
    | succ n =>
      by_cases hc : c = '\n'
      · refine ⟨by simp [fgets, hc], Or.inr ⟨p, by simp [fgets, hc]⟩⟩
      · obtain ⟨h1, h2⟩ := ih n
        refine ⟨?_, ?_⟩
        · simp [fgets, hc, h1]
        · simpa [fgets, hc] using h2

theorem cstr_eq_self {l : List Char} (h : ∀ c ∈ l, c ≠ NUL) : cstr l = l := by
  simp only [cstr]
  exact List.takeWhile_eq_self_iff.mpr (by simpa using h)

theorem cstr_length_le (l : List Char) : (cstr l).length ≤ l.length := by
  simp only [cstr]
  exact (List.takeWhile_sublist _).length_le

theorem unreadAfter_succ (k : Nat) (s : List Char) :
    unreadAfter (k + 1) s = (fgets 4095 (unreadAfter k s)).2 := by
  induction k generalizing s with
  | zero => rfl
  | succ k ih => rw [unreadAfter, ih]; rfl

/-! ### Integer lines -/

theorem takeWhile_append_of_forall_not {p : Char → Bool} (a ws : List Char)
    (h : ∀ x ∈ ws, p x = false) : (a ++ ws).takeWhile p = a.takeWhile p := by
  induction a with
  | nil =>
    cases ws with
    | nil => rfl
    | cons x ws => simp [List.takeWhile, h x (by simp)]
  | cons c a ih =>
    by_cases hc : p c = true
    · simp [List.takeWhile, hc, ih]
    · simp [List.takeWhile, hc]

theorem takeWhile_isxdigit_self {d : List Char} (h : IsHexString d) :
    d.takeWhile isxdigit = d :=
  List.takeWhile_eq_self_iff.mpr h

theorem hexIntParse_space {ws : List Char} (h : ∀ x ∈ ws, isspace x = true) :
    hexIntParse ws = none := by
  cases ws with
  | nil => rfl
  | cons x ws =>
    have hx := h x (by simp)
    simp [hexIntParse, isspace_ne_minus hx, List.takeWhile, isspace_not_xdigit hx]

/-- White space after a line does not change what `BN_hex2bn` reads. -/
theorem hexIntParse_append_space (c ws : List Char) (h : ∀ x ∈ ws, isspace x = true) :
    hexIntParse (c ++ ws) = hexIntParse c := by
  have hnx : ∀ x ∈ ws, isxdigit x = false := fun x hx => isspace_not_xdigit (h x hx)
  cases c with
  | nil => simpa [hexIntParse] using hexIntParse_space h
  | cons a c =>
    have key : ∀ body : List Char,
        ((body ++ ws).takeWhile isxdigit).length = (body.takeWhile isxdigit).length ∧
        (body ++ ws).take ((body.takeWhile isxdigit).length) =
          body.take ((body.takeWhile isxdigit).length) := by
      intro body
      refine ⟨by rw [takeWhile_append_of_forall_not body ws hnx], ?_⟩
      exact List.take_append_of_le_length (List.takeWhile_sublist _).length_le
    by_cases ha : a = '-'
    · simp only [List.cons_append, hexIntParse, ha, if_true, (key c).1, (key c).2]
    · have h1 := (key (a :: c)).1
      have h2 := (key (a :: c)).2
      simp only [List.cons_append] at h1 h2
      simp only [List.cons_append, hexIntParse, ha, if_false, h1, h2]

theorem hexIntParse_hex {d : List Char} (hd : IsHexString d) (hne : d ≠ [])
    (hlen : d.length ≤ INT_MAX_DIV_4) :
    hexIntParse d = some (d.length, (bnAccumulate d : Int)) := by
  cases d with
  | nil => exact absurd rfl hne
  | cons a d =>
    have ha : a ≠ '-' := isxdigit_ne_minus (hd a (by simp))
    have htw := takeWhile_isxdigit_self hd
    simp only [hexIntParse, ha, if_false, htw, List.take_length]
    rw [if_neg]
    · simp
    · simp only [List.length_cons] at hlen ⊢
      omega

theorem foldl_accumulate (d : List Char) (hd : IsHexString d) (acc : Nat) :
    d.foldl (fun l c => 16 * l + (OPENSSL_hexchar2int c).getD 0) acc =
      acc * 16 ^ d.length + hexNumeralValue d := by
  induction d generalizing acc with
  | nil => simp [hexNumeralValue]
  | cons c d ih =>
    have hc := hexchar2int_of_isxdigit (hd c (by simp))
    have hd' : IsHexString d := fun x hx => hd x (by simp [hx])
    simp only [List.foldl_cons, hc, Option.getD_some, ih hd', List.length_cons, hexNumeralValue]
    ring

/-- The accumulation of `BN_hex2bn` is the positional value of the numeral. -/
theorem bnAccumulate_eq {d : List Char} (hd : IsHexString d) :
    bnAccumulate d = hexNumeralValue d := by
  simp [bnAccumulate, foldl_accumulate d hd 0]

/-- A buffer holding a hex numeral and white space is read as its value. -/
theorem readInt_hex {d ws : List Char} (hd : IsHexString d) (hne : d ≠ [])
    (hlen : d.length ≤ INT_MAX_DIV_4) (hws : ∀ x ∈ ws, isspace x = true) :
    readInt (d ++ ws) = some (hexNumeralValue d : Int) := by
  simp [readInt, hexIntParse_append_space d ws hws, hexIntParse_hex hd hne hlen,
    bnAccumulate_eq hd]

theorem readInt_nil : readInt [] = none := rfl

/-! ### Byte lines -/

theorem stripLen_append (l r : List Char) (n : Nat) (hn : n ≤ l.length) :
    Keys.stripLen (l ++ r) n = Keys.stripLen l n := by
  induction n with
  | zero => rfl
  | succ n ih =>
    have hlt : n < l.length := hn
    simp only [Keys.stripLen, List.getElem?_append_left hlt, ih (Nat.le_of_lt hlt)]

/-- The loop of `FromHex` cuts off the trailing white space. -/
theorem take_stripLen (buf : List Char) :
    buf.take (Keys.stripLen buf buf.length) = buf.rdropWhile isspace := by
  induction buf using List.reverseRecOn with
  | nil => rfl
  | append_singleton l c ih =>
    by_cases hc : isspace c = true
    · rw [List.rdropWhile_concat_pos _ _ _ hc, ← ih]
      simp only [List.length_append, List.length_singleton, Keys.stripLen,
        List.getElem?_concat_length, hc, if_true]
      rw [stripLen_append l [c] l.length le_rfl]
      have hle : Keys.stripLen l l.length ≤ l.length := by
        have : ∀ n, Keys.stripLen l n ≤ n := by
          intro n
          induction n with
          | zero => simp [Keys.stripLen]
          | succ n ihn =>
            simp only [Keys.stripLen]
            split
            · split
              · omega
              · omega
            · omega
        exact this _
      exact List.take_append_of_le_length hle
    · rw [List.rdropWhile_concat_neg _ _ _ hc]
      simp [Keys.stripLen, List.getElem?_concat_length, hc]

theorem readBytes_eq (buf : List Char) :
    readBytes buf = OPENSSL_hexstr2buf (buf.rdropWhile isspace) := by
  by_cases h : buf.length ≤ 0
  · have : buf = [] := List.length_eq_zero.mp (Nat.le_zero.mp h)
    subst this
    simp [readBytes, OPENSSL_hexstr2buf]
  · simp only [readBytes, h, if_false, Keys.FromHex, take_stripLen]
    cases OPENSSL_hexstr2buf (List.rdropWhile isspace buf) <;> rfl

theorem rdropWhile_append_space (l ws : List Char) (h : ∀ x ∈ ws, isspace x = true) :
    (l ++ ws).rdropWhile isspace = l.rdropWhile isspace := by
  induction ws using List.reverseRecOn with
  | nil => simp
  | append_singleton ws c ih =>
    have hc : isspace c = true := h c (by simp)
    rw [← List.append_assoc, List.rdropWhile_concat_pos _ _ _ hc]
    exact ih (fun x hx => h x (by simp [hx]))

theorem rdropWhile_hex {d : List Char} (hd : IsHexString d) : d.rdropWhile isspace = d := by
  rw [List.rdropWhile_eq_self_iff]
  intro hne
  have := isxdigit_not_space (hd _ (List.getLast_mem hne))
  simp [this]

/-- White space after a line does not change what `FromHex` decodes. -/
theorem readBytes_append_space (l ws : List Char) (h : ∀ x ∈ ws, isspace x = true) :
    readBytes (l ++ ws) = readBytes l := by
  rw [readBytes_eq, readBytes_eq, rdropWhile_append_space l ws h]

theorem hexstr2bufLoop_hex (n : Nat) : ∀ d : List Char, d.length = n → IsHexString d →
    (n % 2 = 0 → hexstr2bufLoop d = some (hexBytes d)) ∧
    (n % 2 = 1 → hexstr2bufLoop d = none) := by
  induction n using Nat.strong_induction_on with
  | _ n ih =>
    intro d hlen hd
    match d, hlen, hd with
    | [], hlen, _ => subst hlen; simp [hexstr2bufLoop, hexBytes]
    | [a], hlen, hd =>
      subst hlen
      have ha : a ≠ ':' := isxdigit_ne_colon (hd a (by simp))
      simp [hexstr2bufLoop, ha]
    | a :: b :: t, hlen, hd =>
      subst hlen
      have ha := hd a (by simp)
      have hb := hd b (by simp)
      have ht : IsHexString t := fun x hx => hd x (by simp [hx])
      obtain ⟨he, ho⟩ := ih t.length (by simp only [List.length_cons]; omega) t rfl ht
      have hac : a ≠ ':' := isxdigit_ne_colon ha
      simp only [List.length_cons, hexstr2bufLoop, hac, if_false,
        hexchar2int_of_isxdigit ha, hexchar2int_of_isxdigit hb, hexBytes]
      constructor
      · intro hpar
        rw [he (by omega)]
        simp [Nat.mul_comm]
      · intro hpar
        rw [ho (by omega)]

/-- A buffer holding an even, positive number of hex digits and white space
decodes to the bytes of the digits. -/
theorem readBytes_hex {d ws : List Char} (hd : IsHexString d) (hne : d ≠ [])
    (heven : d.length % 2 = 0) (hws : ∀ x ∈ ws, isspace x = true) :
    readBytes (d ++ ws) = some (hexBytes d) := by
  rw [readBytes_append_space d ws hws, readBytes_eq, rdropWhile_hex hd, OPENSSL_hexstr2buf]
  have hlen : 0 < d.length := List.length_pos.mpr hne
  rw [if_neg (by omega)]
  exact (hexstr2bufLoop_hex d.length d rfl hd).1 heven

/-- A buffer holding an odd number of hex digits and white space is rejected. -/
theorem readBytes_odd {d ws : List Char} (hd : IsHexString d)
    (hodd : d.length % 2 = 1) (hws : ∀ x ∈ ws, isspace x = true) :
    readBytes (d ++ ws) = none := by
  rw [readBytes_append_space d ws hws, readBytes_eq, rdropWhile_hex hd, OPENSSL_hexstr2buf]
  split
  · rfl
  · exact (hexstr2bufLoop_hex d.length d rfl hd).2 hodd

/-! ### Files made of lines that fit the buffer -/

theorem bufAt_zero_line {l : List Char} (hl : FitsBuffer l) (rest : List Char) :
    bufAt 0 (l ++ '\n' :: rest) = cstr (l ++ ['\n']) := by
  have := fgets_line 4095 l rest hl.1 (by have := hl.2; omega)
  simp [bufAt, unreadAfter, this]

theorem bufAt_succ_line {l : List Char} (hl : FitsBuffer l) (k : Nat) (rest : List Char) :
    bufAt (k + 1) (l ++ '\n' :: rest) = bufAt k rest := by
  have := fgets_line 4095 l rest hl.1 (by have := hl.2; omega)
  simp [bufAt, unreadAfter, this]

theorem bufAt_zero_end {l tail : List Char} (hl : FitsBuffer l) (ht : LineEnd tail) :
    ∃ ws, (∀ x ∈ ws, isspace x = true) ∧ bufAt 0 (l ++ tail) = cstr (l ++ ws) := by
  cases tail with
  | nil =>
    refine ⟨[], by simp, ?_⟩
    have := fgets_last 4095 l hl.1 (by have := hl.2; omega)
    simp [bufAt, unreadAfter, this]
  | cons x t =>
    have hx : x = '\n' := by
      rcases ht with h | h
      · cases h
      · simpa using h
    subst hx
    exact ⟨['\n'], by simp [isspace_newline], bufAt_zero_line hl t⟩

theorem IsHexString.fits {l : List Char} (h : IsHexString l) (hlen : l.length + 2 ≤ 4096) :
    FitsBuffer l :=
  ⟨fun hmem => isxdigit_ne_newline (h _ hmem) rfl, hlen⟩

theorem cstr_hex_space {d ws : List Char} (hd : IsHexString d)
    (hws : ∀ x ∈ ws, isspace x = true) : cstr (d ++ ws) = d ++ ws := by
  apply cstr_eq_self
  intro c hc
  rcases List.mem_append.mp hc with h | h
  · exact isxdigit_ne_NUL (hd c h)
  · exact isspace_ne_NUL (hws c h)

theorem toOption_some_some {r : Except String (Option Keys)} {k : Keys}
    (h : r.toOption = some (some k)) : r = .ok (some k) := by
  cases r with
  | error e => simp [Except.toOption] at h
  | ok v => simpa [Except.toOption] using h

theorem toOption_none {r : Except String (Option Keys)} (h : r.toOption = none) :
    ∃ msg, r = .error msg := by
  cases r with
  | error e => exact ⟨e, rfl⟩
  | ok v => simp [Except.toOption] at h

theorem singleton_newline_space : ∀ x ∈ ['\n'], isspace x = true := by
  simp [isspace_newline]

/-! ### Lines longer than the buffer -/

theorem hexNumeralValue_zeros (n : Nat) : hexNumeralValue (List.replicate n '0') = 0 := by
  induction n with
  | zero => rfl
  | succ n ih =>
    have h0 : hexDigitValue '0' = 0 := by decide
    simp [List.replicate_succ, hexNumeralValue, ih, h0]

theorem isHexString_zeros (n : Nat) : IsHexString (List.replicate n '0') := by
  intro c hc
  rw [(List.mem_replicate.mp hc).2]
  decide

theorem bufAt_zero_full {d : List Char} (hd : IsHexString d) (hlen : d.length = 4095)
    (rest : List Char) : bufAt 0 (d ++ rest) = d := by
  have hnl : '\n' ∉ d := fun h => isxdigit_ne_newline (hd _ h) rfl
  have := fgets_full 4095 d rest hnl hlen
  have hc := @cstr_hex_space d [] hd (by simp)
  simp only [List.append_nil] at hc
  simp only [bufAt, unreadAfter, this, hc]

theorem bufAt_succ_full {d : List Char} (hd : IsHexString d) (hlen : d.length = 4095)
    (k : Nat) (rest : List Char) : bufAt (k + 1) (d ++ rest) = bufAt k rest := by
  have hnl : '\n' ∉ d := fun h => isxdigit_ne_newline (hd _ h) rfl
  have := fgets_full 4095 d rest hnl hlen
  simp only [bufAt, unreadAfter, this]

theorem readInt_zeros (n : Nat) (hn : 0 < n) (hle : n ≤ INT_MAX_DIV_4) :
    readInt (List.replicate n '0') = some 0 := by
  have hne : List.replicate n '0' ≠ [] := by
    intro h
    have := congrArg List.length h
    rw [List.length_replicate] at this
    simp at this
    omega
  have h := @readInt_hex (List.replicate n '0') [] (isHexString_zeros n) hne
    (by rw [List.length_replicate]; exact hle) (by simp)
  rw [hexNumeralValue_zeros, List.append_nil] at h
  exact h

/-- The outcome of `LoadKeys` on a file that starts with 4095 zero digits: the
first read takes exactly these, the other four reads see what follows. -/
theorem LoadKeys_obs_zeros (path : String) (w : World) (rest : List Char) :
    (LoadKeys (fun _ => some (List.replicate 4095 '0' ++ rest)) path w).1.toOption =
      (readBytes (bufAt 0 rest)).bind fun sk =>
      (readInt (bufAt 1 rest)).bind fun n =>
      (readInt (bufAt 2 rest)).bind fun d =>
      (readBytes (bufAt 3 rest)).bind fun cert =>
        some (some ⟨sk, none, none, none,
          ⟨w.next + 1, some ⟨w.next + 3, n⟩, some ⟨w.next + 2, 0⟩, some ⟨w.next + 4, d⟩⟩, cert⟩) := by
  have hd := isHexString_zeros 4095
  have hlen : (List.replicate 4095 '0').length = 4095 := List.length_replicate _ _
  rw [LoadKeys_obs _ path w _ rfl, bufAt_zero_full hd hlen, bufAt_succ_full hd hlen,
    bufAt_succ_full hd hlen, bufAt_succ_full hd hlen, bufAt_succ_full hd hlen,
    readInt_zeros 4095 (by decide) (by decide)]
  rfl

/-! ### Integer lines that do not start a numeral -/

theorem readInt_of_not_starts {b : List Char} (h : startsHexNumeral b = false) :
    readInt b = none := by
  cases b with
  | nil => rfl
  | cons c rest =>
    by_cases hc : c = '-'
    · cases rest with
      | nil => simp [readInt, hexIntParse, hc]
      | cons x rest =>
        simp only [startsHexNumeral, hc, if_true] at h
        simp [readInt, hexIntParse, hc, List.takeWhile, h]
    · simp only [startsHexNumeral, hc, if_false] at h
      simp [readInt, hexIntParse, hc, List.takeWhile, h]

theorem startsHexNumeral_space {ws : List Char} (hws : ∀ x ∈ ws, isspace x = true) :
    startsHexNumeral ws = false := by
  cases ws with
  | nil => rfl
  | cons x ws =>
    have hx := hws x (by simp)
    simp [startsHexNumeral, isspace_ne_minus hx, isspace_not_xdigit hx]

theorem cstr_cons (c : Char) (l : List Char) :
    cstr (c :: l) = if c = NUL then [] else c :: cstr l := by
  by_cases h : c = NUL <;> simp [cstr, List.takeWhile, h]

theorem startsHexNumeral_cstr {l ws : List Char} (h : startsHexNumeral l = false)
    (hws : ∀ x ∈ ws, isspace x = true) : startsHexNumeral (cstr (l ++ ws)) = false := by
  have hsp : startsHexNumeral (cstr ws) = false := by
    rw [cstr_eq_self (fun c hc => isspace_ne_NUL (hws c hc))]
    exact startsHexNumeral_space hws
  cases l with
  | nil => simpa using hsp
  | cons c l =>
    rw [List.cons_append, cstr_cons]
    by_cases h0 : c = NUL
    · simp [h0, startsHexNumeral]
    · simp only [h0, if_false]
      by_cases hc : c = '-'
      · cases l with
        | nil =>
          simp only [List.nil_append, startsHexNumeral, hc, if_true]
          cases hw : cstr ws with
          | nil => rfl
          | cons x r =>
            rw [hw] at hsp
            have hx : x ≠ '-' := by
              have hmem : x ∈ ws := by
                have : x ∈ cstr ws := by rw [hw]; simp
                exact (List.takeWhile_sublist _).subset this
              exact isspace_ne_minus (hws x hmem)
            simpa [startsHexNumeral, hx] using hsp
        | cons x l =>
          simp only [startsHexNumeral, hc, if_true] at h
          rw [List.cons_append, cstr_cons]
          by_cases hx0 : x = NUL
          · simp [hx0, startsHexNumeral, hc]
          · simp [hx0, startsHexNumeral, hc, h]
      · simp only [startsHexNumeral, hc, if_false] at h
        simp [startsHexNumeral, hc, h]

theorem readInt_bad_line {l ws : List Char} (h : startsHexNumeral l = false)
    (hws : ∀ x ∈ ws, isspace x = true) : readInt (cstr (l ++ ws)) = none :=
  readInt_of_not_starts (startsHexNumeral_cstr h hws)

/-- When one of the five reads is rejected, `LoadKeys` throws. -/
theorem LoadKeys_throws_of_read (fs : String → Option (List Char)) (path : String) (w : World)
    (content : List Char) (hfs : fs path = some content)
    (h : readInt (bufAt 0 content) = none ∨ readBytes (bufAt 1 content) = none ∨
      readInt (bufAt 2 content) = none ∨ readInt (bufAt 3 content) = none ∨
      readBytes (bufAt 4 content) = none) :
    ∃ msg, (LoadKeys fs path w).1 = .error msg := by
  apply toOption_none
  rw [LoadKeys_obs fs path w content hfs]
  cases h1 : readInt (bufAt 0 content) <;> cases h2 : readBytes (bufAt 1 content) <;>
    cases h3 : readInt (bufAt 2 content) <;> cases h4 : readInt (bufAt 3 content) <;>
    cases h5 : readBytes (bufAt 4 content) <;> simp_all

/-! ### C1: well-formed files -/

/-- C1, amended. For every credential file that opens and consists of five
lines that each fit the 4096 byte buffer, where lines 1, 3 and 4 are
hexadecimal numerals and lines 2 and 5 are hex strings with an even and positive
number of digits, `LoadKeys` returns key material whose session key and
certificate are the bytes encoded by lines 2 and 5 and whose key object holds
`e`, `n`, `d` with the values of lines 1, 3 and 4. -/
theorem LoadKeys_wellformed (fs : String → Option (List Char)) (path : String) (w : World)
    (l1 l2 l3 l4 l5 tail : List Char)
    (hfs : fs path = some (fiveLines l1 l2 l3 l4 l5 tail)) (htail : LineEnd tail)
    (h1 : IsHexString l1 ∧ l1 ≠ [] ∧ l1.length + 2 ≤ 4096)
    (h2 : IsHexString l2 ∧ l2 ≠ [] ∧ l2.length % 2 = 0 ∧ l2.length + 2 ≤ 4096)
    (h3 : IsHexString l3 ∧ l3 ≠ [] ∧ l3.length + 2 ≤ 4096)
    (h4 : IsHexString l4 ∧ l4 ≠ [] ∧ l4.length + 2 ≤ 4096)
    (h5 : IsHexString l5 ∧ l5 ≠ [] ∧ l5.length % 2 = 0 ∧ l5.length + 2 ≤ 4096) :
    ∃ keys w', LoadKeys fs path w = (.ok (some keys), w') ∧
      keys.skey = hexBytes l2 ∧ keys.certificate = hexBytes l5 ∧
      keys.rsa.e.map BIGNUM.val = some (hexNumeralValue l1 : Int) ∧
      keys.rsa.n.map BIGNUM.val = some (hexNumeralValue l3 : Int) ∧
      keys.rsa.d.map BIGNUM.val = some (hexNumeralValue l4 : Int) := by
  have f1 := h1.1.fits h1.2.2
  have f2 := h2.1.fits h2.2.2.2
  have f3 := h3.1.fits h3.2.2
  have f4 := h4.1.fits h4.2.2
  have f5 := h5.1.fits h5.2.2.2
  have hobs := LoadKeys_obs fs path w _ hfs
  obtain ⟨ws, hws, hb5⟩ := bufAt_zero_end f5 htail
  have nl := singleton_newline_space
  have e1 : readInt (bufAt 0 (fiveLines l1 l2 l3 l4 l5 tail)) = some (hexNumeralValue l1 : Int) := by
    rw [fiveLines, bufAt_zero_line f1, cstr_hex_space h1.1 nl]
    exact readInt_hex h1.1 h1.2.1 (by have := h1.2.2; simp only [INT_MAX_DIV_4]; omega) nl
  have e2 : readBytes (bufAt 1 (fiveLines l1 l2 l3 l4 l5 tail)) = some (hexBytes l2) := by
    rw [fiveLines, bufAt_succ_line f1, bufAt_zero_line f2, cstr_hex_space h2.1 nl]
    exact readBytes_hex h2.1 h2.2.1 h2.2.2.1 nl
  have e3 : readInt (bufAt 2 (fiveLines l1 l2 l3 l4 l5 tail)) = some (hexNumeralValue l3 : Int) := by
    rw [fiveLines, bufAt_succ_line f1, bufAt_succ_line f2, bufAt_zero_line f3,
      cstr_hex_space h3.1 nl]
    exact readInt_hex h3.1 h3.2.1 (by have := h3.2.2; simp only [INT_MAX_DIV_4]; omega) nl
  have e4 : readInt (bufAt 3 (fiveLines l1 l2 l3 l4 l5 tail)) = some (hexNumeralValue l4 : Int) := by
    rw [fiveLines, bufAt_succ_line f1, bufAt_succ_line f2, bufAt_succ_line f3,
      bufAt_zero_line f4, cstr_hex_space h4.1 nl]
    exact readInt_hex h4.1 h4.2.1 (by have := h4.2.2; simp only [INT_MAX_DIV_4]; omega) nl
  have e5 : readBytes (bufAt 4 (fiveLines l1 l2 l3 l4 l5 tail)) = some (hexBytes l5) := by
    rw [fiveLines, bufAt_succ_line f1, bufAt_succ_line f2, bufAt_succ_line f3,
      bufAt_succ_line f4, hb5, cstr_hex_space h5.1 hws]
    exact readBytes_hex h5.1 h5.2.1 h5.2.2.1 hws
  rw [e1, e2, e3, e4, e5] at hobs
  simp only [Option.some_bind] at hobs
  have hres := toOption_some_some hobs
  exact ⟨_, (LoadKeys fs path w).2, Prod.ext hres rfl, rfl, rfl, rfl, rfl, rfl⟩

/-- The lines `10001`, `aabb`, `ff`, `03`, `ccdd` give the session key `AA BB`,
the certificate `CC DD`, `e = 0x10001`, `n = 0xFF` and `d = 0x03`. -/
theorem LoadKeys_wellformed_witness :
    ∃ keys w', LoadKeys (fun _ => some "10001\naabb\nff\n03\nccdd\n".toList) "mtpz-data"
        ⟨0, []⟩ = (.ok (some keys), w') ∧
      keys.skey = [0xAA, 0xBB] ∧ keys.certificate = [0xCC, 0xDD] ∧
      keys.rsa.e.map BIGNUM.val = some 0x10001 ∧
      keys.rsa.n.map BIGNUM.val = some 0xFF ∧
      keys.rsa.d.map BIGNUM.val = some 0x03 := by
  obtain ⟨keys, w', h, hs, hc, he, hn, hd⟩ :=
    LoadKeys_wellformed (fun _ => some "10001\naabb\nff\n03\nccdd\n".toList) "mtpz-data"
      ⟨0, []⟩ "10001".toList "aabb".toList "ff".toList "03".toList "ccdd".toList ['\n']
      rfl (by decide) (by decide) (by decide) (by decide) (by decide) (by decide)
  refine ⟨keys, w', h, ?_, ?_, ?_, ?_, ?_⟩
  · rw [hs]; decide
  · rw [hc]; decide
  · rw [he]; decide
  · rw [hn]; decide
  · rw [hd]; decide

/-- C1 as stated fails: with an empty second line (a hex string of zero digits,
an even number) and the other four lines well-formed, `LoadKeys` throws. -/
theorem LoadKeys_empty_session_key :
    IsHexString [] ∧ ([] : List Char).length % 2 = 0 ∧
    (LoadKeys (fun _ => some "10001\n\nff\n03\nccdd\n".toList) "mtpz-data" ⟨0, []⟩).1 =
      .error "hex decoding failed" :=
  ⟨by decide, rfl, rfl⟩

/-! ### C2: integer lines -/

/-- C2, amended. For every credential file that opens and consists of five
lines of which the first four each fit the 4096 byte buffer, if one of the
three integer lines (1, 3, 4) does not start with a hex digit, after at most
one `-`, `LoadKeys` throws. -/
theorem LoadKeys_bad_integer_line (fs : String → Option (List Char)) (path : String)
    (w : World) (l1 l2 l3 l4 l5 tail : List Char)
    (hfs : fs path = some (fiveLines l1 l2 l3 l4 l5 tail))
    (f1 : FitsBuffer l1) (f2 : FitsBuffer l2) (f3 : FitsBuffer l3) (f4 : FitsBuffer l4)
    (hbad : startsHexNumeral l1 = false ∨ startsHexNumeral l3 = false ∨
      startsHexNumeral l4 = false) :
    ∃ msg, (LoadKeys fs path w).1 = .error msg := by
  apply LoadKeys_throws_of_read fs path w _ hfs
  have nl := singleton_newline_space
  rcases hbad with h | h | h
  · left
    rw [fiveLines, bufAt_zero_line f1]
    exact readInt_bad_line h nl
  · right; right; left
    rw [fiveLines, bufAt_succ_line f1, bufAt_succ_line f2, bufAt_zero_line f3]
    exact readInt_bad_line h nl
  · right; right; right; left
    rw [fiveLines, bufAt_succ_line f1, bufAt_succ_line f2, bufAt_succ_line f3,
      bufAt_zero_line f4]
    exact readInt_bad_line h nl

theorem LoadKeys_bad_integer_line_witness :
    ∃ msg, (LoadKeys (fun _ => some "x10001\naabb\nff\n03\nccdd\n".toList) "mtpz-data"
      ⟨0, []⟩).1 = .error msg :=
  LoadKeys_bad_integer_line _ "mtpz-data" ⟨0, []⟩ "x10001".toList "aabb".toList "ff".toList
    "03".toList "ccdd".toList ['\n'] rfl (by decide) (by decide) (by decide) (by decide)
    (Or.inl (by decide))

/-- C2 as stated fails. A first line `10001zz` holds non-hexadecimal characters
and is read as `0x10001`; a first line `-3` is no non-negative numeral and is
read as `-3`; and behind a first line longer than the buffer the fourth line
`:ccdd`, no numeral at all, is read as the certificate. -/
theorem LoadKeys_accepts_bad_integer_line :
    ¬ IsHexString "10001zz".toList ∧
    (LoadKeys (fun _ => some "10001zz\naabb\nff\n03\nccdd\n".toList) "mtpz-data" ⟨0, []⟩).1 =
      .ok (some ⟨[0xAA, 0xBB], none, none, none,
        ⟨1, some ⟨3, 0xFF⟩, some ⟨2, 0x10001⟩, some ⟨4, 3⟩⟩, [0xCC, 0xDD]⟩) ∧
    (LoadKeys (fun _ => some "-3\naabb\nff\n03\nccdd\n".toList) "mtpz-data" ⟨0, []⟩).1 =
      .ok (some ⟨[0xAA, 0xBB], none, none, none,
        ⟨1, some ⟨3, 0xFF⟩, some ⟨2, -3⟩, some ⟨4, 3⟩⟩, [0xCC, 0xDD]⟩) ∧
    startsHexNumeral ":ccdd".toList = false ∧
    (LoadKeys (fun _ => some (List.replicate 4095 '0' ++ "aa\nff\n03\n:ccdd\nee\n".toList))
        "mtpz-data" ⟨0, []⟩).1 =
      .ok (some ⟨[0xAA], none, none, none,
        ⟨1, some ⟨3, 0xFF⟩, some ⟨2, 0⟩, some ⟨4, 3⟩⟩, [0xCC, 0xDD]⟩) := by
  refine ⟨by decide, rfl, rfl, rfl, ?_⟩
  apply toOption_some_some
  rw [LoadKeys_obs_zeros]
  rfl

/-! ### C3: byte lines with an odd number of digits -/

theorem rdropWhile_decomp (l : List Char) :
    ∃ sp, l = l.rdropWhile isspace ++ sp ∧ ∀ x ∈ sp, isspace x = true := by
  induction l using List.reverseRecOn with
  | nil => exact ⟨[], rfl, by simp⟩
  | append_singleton l c ih =>
    by_cases hc : isspace c = true
    · obtain ⟨sp, h1, h2⟩ := ih
      refine ⟨sp ++ [c], ?_, ?_⟩
      · rw [List.rdropWhile_concat_pos _ _ _ hc, ← List.append_assoc, ← h1]
      · intro x hx
        rcases List.mem_append.mp hx with h | h
        · exact h2 x h
        · rw [List.mem_singleton.mp h]; exact hc
    · exact ⟨[], by rw [List.rdropWhile_concat_neg _ _ _ hc, List.append_nil], by simp⟩

theorem readBytes_odd_line {l ws : List Char} (h : OddHexLine l)
    (hws : ∀ x ∈ ws, isspace x = true) : readBytes (cstr (l ++ ws)) = none := by
  obtain ⟨hd, hodd⟩ := h
  obtain ⟨sp, hl, hsp⟩ := rdropWhile_decomp l
  generalize l.rdropWhile isspace = d at hd hodd hl
  subst hl
  have hall : ∀ x ∈ sp ++ ws, isspace x = true := by
    intro x hx
    rcases List.mem_append.mp hx with h | h
    · exact hsp x h
    · exact hws x h
  rw [List.append_assoc, cstr_hex_space hd hall]
  exact readBytes_odd hd hodd hall

/-- C3, amended. For every credential file that opens and consists of five
lines that each fit the 4096 byte buffer, if the session-key line (line 2) or
the certificate line (line 5) is an odd number of hex digits followed by white
space only, `LoadKeys` throws. -/
theorem LoadKeys_odd_byte_line (fs : String → Option (List Char)) (path : String) (w : World)
    (l1 l2 l3 l4 l5 tail : List Char)
    (hfs : fs path = some (fiveLines l1 l2 l3 l4 l5 tail)) (htail : LineEnd tail)
    (f1 : FitsBuffer l1) (f2 : FitsBuffer l2) (f3 : FitsBuffer l3) (f4 : FitsBuffer l4)
    (f5 : FitsBuffer l5) (hodd : OddHexLine l2 ∨ OddHexLine l5) :
    ∃ msg, (LoadKeys fs path w).1 = .error msg := by
  apply LoadKeys_throws_of_read fs path w _ hfs
  rcases hodd with h | h
  · right; left
    rw [fiveLines, bufAt_succ_line f1, bufAt_zero_line f2]
    exact readBytes_odd_line h singleton_newline_space
  · right; right; right; right
    obtain ⟨ws, hws, hb5⟩ := bufAt_zero_end f5 htail
    rw [fiveLines, bufAt_succ_line f1, bufAt_succ_line f2, bufAt_succ_line f3,
      bufAt_succ_line f4, hb5]
    exact readBytes_odd_line h hws

theorem LoadKeys_odd_byte_line_witness :
    ∃ msg, (LoadKeys (fun _ => some "10001\naabb\nff\n03\nccd \n".toList) "mtpz-data"
      ⟨0, []⟩).1 = .error msg :=
  LoadKeys_odd_byte_line _ "mtpz-data" ⟨0, []⟩ "10001".toList "aabb".toList "ff".toList
    "03".toList "ccd ".toList ['\n'] rfl (by decide)
    (by decide) (by decide) (by decide) (by decide) (by decide)
    (Or.inr (by decide))

/-- C3 as stated fails. The first line is a numeral of 4097 digits, longer than
the buffer, so the second read takes its last two digits as the session key;
the second line `f`, one hex digit, is then read as the modulus, and `LoadKeys`
returns key material. -/
theorem LoadKeys_accepts_odd_byte_line :
    IsHexString (List.replicate 4095 '0' ++ "aa".toList) ∧
    OddHexLine "f".toList ∧ IsHexString "03".toList ∧ IsHexString "ccdd".toList ∧
    (LoadKeys (fun _ => some (fiveLines (List.replicate 4095 '0' ++ "aa".toList) "f".toList
        "03".toList "ccdd".toList "ee".toList ['\n'])) "mtpz-data" ⟨0, []⟩).1 =
      .ok (some ⟨[0xAA], none, none, none,
        ⟨1, some ⟨3, 0xF⟩, some ⟨2, 0⟩, some ⟨4, 3⟩⟩, [0xCC, 0xDD]⟩) := by
  refine ⟨?_, by decide, by decide, by decide, ?_⟩
  · intro c hc
    rcases List.mem_append.mp hc with h | h
    · exact isHexString_zeros _ c h
    · exact (by decide : IsHexString "aa".toList) c h
  · apply toOption_some_some
    rw [fiveLines, List.append_assoc, LoadKeys_obs_zeros]
    rfl

/-! ### C10: files with fewer than five lines -/

theorem fileOfLines_cons (l : List Char) (ls : List (List Char)) (last : List Char) :
    fileOfLines (l :: ls) last = l ++ '\n' :: fileOfLines ls last := by
  simp [fileOfLines]

theorem unreadAfter_lines (lines : List (List Char)) (last : List Char)
    (hfit : ∀ l ∈ lines, FitsBuffer l) :
    unreadAfter lines.length (fileOfLines lines last) = last := by
  induction lines with
  | nil => simp [fileOfLines, unreadAfter]
  | cons l ls ih =>
    have hl := hfit l (by simp)
    have := fgets_line 4095 l (fileOfLines ls last) hl.1 (by have := hl.2; omega)
    rw [fileOfLines_cons, List.length_cons, unreadAfter, this]
    exact ih (fun x hx => hfit x (by simp [hx]))

/-- A file with `k` lines that fit leaves the buffer of read `k + 1` empty. -/
theorem bufAt_lines_nil (lines : List (List Char)) (last : List Char)
    (hfit : ∀ l ∈ lines, FitsBuffer l) (hlast : '\n' ∉ last ∧ last.length + 1 ≤ 4096) :
    bufAt (lines.length + (if last = [] then 0 else 1)) (fileOfLines lines last) = [] := by
  by_cases h : last = []
  · simp only [h, if_true, Nat.add_zero, bufAt]
    rw [unreadAfter_lines lines [] hfit, fgets_nil]
    rfl
  · simp only [h, if_false, bufAt]
    rw [unreadAfter_succ, unreadAfter_lines lines last hfit,
      fgets_last 4095 last hlast.1 (by have := hlast.2; omega), fgets_nil]
    rfl

theorem readBytes_nil : readBytes [] = none := rfl

/-- C10, amended. For every credential file that opens, whose lines each fit
the 4096 byte buffer and that has fewer than five lines (the empty file
included), `LoadKeys` throws; and a read at the end of the file returns 0 and
leaves the buffer an empty string. -/
theorem LoadKeys_short_file (fs : String → Option (List Char)) (path : String) (w : World)
    (lines : List (List Char)) (last : List Char)
    (hfs : fs path = some (fileOfLines lines last))
    (hfit : ∀ l ∈ lines, FitsBuffer l) (hlast : '\n' ∉ last ∧ last.length + 1 ≤ 4096)
    (hfew : lines.length + (if last = [] then 0 else 1) < 5) :
    (∃ msg, (LoadKeys fs path w).1 = .error msg) ∧
      ∀ h, BIO_gets ⟨h, []⟩ 4096 = (0, [], ⟨h, []⟩) := by
  refine ⟨?_, fun h => rfl⟩
  apply LoadKeys_throws_of_read fs path w _ hfs
  have hnil := bufAt_lines_nil lines last hfit hlast
  generalize lines.length + (if last = [] then 0 else 1) = k at hnil hfew
  interval_cases k <;> simp [hnil, readInt_nil, readBytes_nil]

theorem LoadKeys_short_file_witness :
    (∃ msg, (LoadKeys (fun _ => some "10001\naabb\nff\n03\n".toList) "mtpz-data"
      ⟨0, []⟩).1 = .error msg) ∧ ∀ h, BIO_gets ⟨h, []⟩ 4096 = (0, [], ⟨h, []⟩) :=
  LoadKeys_short_file _ "mtpz-data" ⟨0, []⟩
    ["10001".toList, "aabb".toList, "ff".toList, "03".toList] [] rfl
    (by decide) (by decide) (by decide)

/-- C10 as stated fails. A file of four lines whose first line is longer than
the buffer is read in five pieces, and `LoadKeys` returns key material. -/
theorem LoadKeys_accepts_four_lines :
    (LoadKeys (fun _ => some (fileOfLines [List.replicate 4095 '0' ++ "aa".toList,
        "ff".toList, "03".toList, "ccdd".toList] [])) "mtpz-data" ⟨0, []⟩).1 =
      .ok (some ⟨[0xAA], none, none, none,
        ⟨1, some ⟨3, 0xFF⟩, some ⟨2, 0⟩, some ⟨4, 3⟩⟩, [0xCC, 0xDD]⟩) := by
  apply toOption_some_some
  rw [fileOfLines_cons, List.append_assoc, LoadKeys_obs_zeros]
  rfl

/-! ### C9: trailing white space -/

theorem cstr_append_space (c ws : List Char) (hws : ∀ x ∈ ws, isspace x = true) :
    ∃ ws', (∀ x ∈ ws', isspace x = true) ∧ cstr (c ++ ws) = cstr c ++ ws' := by
  induction c with
  | nil =>
    refine ⟨ws, hws, ?_⟩
    rw [List.nil_append, cstr_eq_self (fun x hx => isspace_ne_NUL (hws x hx))]
    rfl
  | cons a c ih =>
    obtain ⟨ws', h1, h2⟩ := ih
    by_cases ha : a = NUL
    · exact ⟨[], by simp, by simp [cstr_cons, ha]⟩
    · exact ⟨ws', h1, by simp [cstr_cons, ha, h2]⟩

theorem readInt_cstr_space (c ws : List Char) (hws : ∀ x ∈ ws, isspace x = true) :
    readInt (cstr (c ++ ws)) = readInt (cstr c) := by
  obtain ⟨ws', h1, h2⟩ := cstr_append_space c ws hws
  rw [h2, readInt, hexIntParse_append_space _ _ h1, readInt]

theorem readBytes_cstr_space (c ws : List Char) (hws : ∀ x ∈ ws, isspace x = true) :
    readBytes (cstr (c ++ ws)) = readBytes (cstr c) := by
  obtain ⟨ws', h1, h2⟩ := cstr_append_space c ws hws
  rw [h2, readBytes_append_space _ _ h1]

theorem fgets_padded_line (c ws post : List Char) (nl : Bool) (hc : '\n' ∉ c)
    (hws : ∀ x ∈ ws, isspace x = true ∧ x ≠ '\n') (hfit : (c ++ ws).length + 2 ≤ 4096)
    (hpost : post = [] ∨ nl = true) :
    ∃ sp, (∀ x ∈ sp, isspace x = true) ∧
      fgets 4095 (c ++ ws ++ (if nl then '\n' :: post else [])) = (c ++ sp, post) := by
  have hnl : '\n' ∉ c ++ ws := by
    intro h
    rcases List.mem_append.mp h with h | h
    · exact hc h
    · exact (hws _ h).2 rfl
  cases nl with
  | true =>
    refine ⟨ws ++ ['\n'], ?_, ?_⟩
    · intro x hx
      rcases List.mem_append.mp hx with h | h
      · exact (hws x h).1
      · exact singleton_newline_space x h
    · simp only [if_true]
      rw [fgets_line 4095 (c ++ ws) post hnl (by omega), List.append_assoc]
  | false =>
    have hp : post = [] := by simpa using hpost
    refine ⟨ws, fun x hx => (hws x hx).1, ?_⟩
    simp only [Bool.false_eq_true, if_false, List.append_nil]
    rw [fgets_last 4095 (c ++ ws) hnl (by omega), hp]

theorem sameUpToSpace_step (c w1 w2 post : List Char) (nl1 nl2 : Bool) (hc : '\n' ∉ c)
    (hw1 : ∀ x ∈ w1, isspace x = true ∧ x ≠ '\n')
    (hw2 : ∀ x ∈ w2, isspace x = true ∧ x ≠ '\n')
    (hfit1 : (c ++ w1).length + 2 ≤ 4096) (hfit2 : (c ++ w2).length + 2 ≤ 4096)
    (hpost : post = [] ∨ (nl1 = true ∧ nl2 = true)) (s1 s2 : List Char)
    (h : SameUpToSpace (c ++ w1 ++ (if nl1 then '\n' :: post else []))
      (c ++ w2 ++ (if nl2 then '\n' :: post else [])) s1 s2) :
    SameUpToSpace (c ++ w1 ++ (if nl1 then '\n' :: post else []))
      (c ++ w2 ++ (if nl2 then '\n' :: post else [])) (fgets 4095 s1).2 (fgets 4095 s2).2 ∧
    readInt (cstr (fgets 4095 s1).1) = readInt (cstr (fgets 4095 s2).1) ∧
    readBytes (cstr (fgets 4095 s1).1) = readBytes (cstr (fgets 4095 s2).1) := by
  rcases h with rfl | ⟨rfl, rfl⟩ | ⟨p, rfl, rfl⟩
  · exact ⟨Or.inl rfl, rfl, rfl⟩
  · obtain ⟨sp1, hsp1, e1⟩ := fgets_padded_line c w1 post nl1 hc hw1 hfit1
      (hpost.imp id And.left)
    obtain ⟨sp2, hsp2, e2⟩ := fgets_padded_line c w2 post nl2 hc hw2 hfit2
      (hpost.imp id And.right)
    rw [e1, e2]
    refine ⟨Or.inl rfl, ?_, ?_⟩
    · rw [readInt_cstr_space c sp1 hsp1, readInt_cstr_space c sp2 hsp2]
    · rw [readBytes_cstr_space c sp1 hsp1, readBytes_cstr_space c sp2 hsp2]
  · obtain ⟨e1, hq⟩ := fgets_append_newline 4095 p
      (c ++ w1 ++ (if nl1 then '\n' :: post else []))
    obtain ⟨e2, -⟩ := fgets_append_newline 4095 p
      (c ++ w2 ++ (if nl2 then '\n' :: post else []))
    rw [e1, e2]
    refine ⟨?_, rfl, rfl⟩
    rcases hq with hq | ⟨q, hq⟩
    · rw [hq]
      exact Or.inr (Or.inl ⟨rfl, rfl⟩)
    · rw [hq]
      exact Or.inr (Or.inr ⟨q, by simp, by simp⟩)

theorem sameUpToSpace_bufAt (c w1 w2 post : List Char) (nl1 nl2 : Bool) (hc : '\n' ∉ c)
    (hw1 : ∀ x ∈ w1, isspace x = true ∧ x ≠ '\n')
    (hw2 : ∀ x ∈ w2, isspace x = true ∧ x ≠ '\n')
    (hfit1 : (c ++ w1).length + 2 ≤ 4096) (hfit2 : (c ++ w2).length + 2 ≤ 4096)
    (hpost : post = [] ∨ (nl1 = true ∧ nl2 = true)) (k : Nat) : ∀ s1 s2 : List Char,
    SameUpToSpace (c ++ w1 ++ (if nl1 then '\n' :: post else []))
      (c ++ w2 ++ (if nl2 then '\n' :: post else [])) s1 s2 →
    readInt (bufAt k s1) = readInt (bufAt k s2) ∧
    readBytes (bufAt k s1) = readBytes (bufAt k s2) := by
  induction k with
  | zero =>
    intro s1 s2 h
    exact (sameUpToSpace_step c w1 w2 post nl1 nl2 hc hw1 hw2 hfit1 hfit2 hpost s1 s2 h).2
  | succ k ih =>
    intro s1 s2 h
    exact ih _ _
      (sameUpToSpace_step c w1 w2 post nl1 nl2 hc hw1 hw2 hfit1 hfit2 hpost s1 s2 h).1

/-- C9. Take any credential file and any line `c` of it that starts the file or
follows a newline. White space other than the newline put after the line (`w1`
in one file, `w2` in the other), and the newline that ends it when nothing
follows, change neither whether `LoadKeys` returns key material nor any field
of it, as long as the padded line fits the 4096 byte buffer. -/
theorem LoadKeys_trailing_space (fs1 fs2 : String → Option (List Char)) (path : String)
    (w : World) (pre c w1 w2 post : List Char) (nl1 nl2 : Bool)
    (hpre : pre = [] ∨ ∃ p, pre = p ++ ['\n']) (hc : '\n' ∉ c)
    (hw1 : ∀ x ∈ w1, isspace x = true ∧ x ≠ '\n')
    (hw2 : ∀ x ∈ w2, isspace x = true ∧ x ≠ '\n')
    (hfit1 : (c ++ w1).length + 2 ≤ 4096) (hfit2 : (c ++ w2).length + 2 ≤ 4096)
    (hpost : post = [] ∨ (nl1 = true ∧ nl2 = true))
    (h1 : fs1 path = some (pre ++ (c ++ w1 ++ (if nl1 then '\n' :: post else []))))
    (h2 : fs2 path = some (pre ++ (c ++ w2 ++ (if nl2 then '\n' :: post else [])))) :
    (LoadKeys fs1 path w).1.toOption = (LoadKeys fs2 path w).1.toOption := by
  have hrel : SameUpToSpace (c ++ w1 ++ (if nl1 then '\n' :: post else []))
      (c ++ w2 ++ (if nl2 then '\n' :: post else []))
      (pre ++ (c ++ w1 ++ (if nl1 then '\n' :: post else [])))
      (pre ++ (c ++ w2 ++ (if nl2 then '\n' :: post else []))) := by
    rcases hpre with rfl | ⟨p, rfl⟩
    · exact Or.inr (Or.inl ⟨rfl, rfl⟩)
    · exact Or.inr (Or.inr ⟨p, by simp, by simp⟩)
  have key := fun k =>
    sameUpToSpace_bufAt c w1 w2 post nl1 nl2 hc hw1 hw2 hfit1 hfit2 hpost k _ _ hrel
  rw [LoadKeys_obs fs1 path w _ h1, LoadKeys_obs fs2 path w _ h2, (key 0).1, (key 1).2,
    (key 2).1, (key 3).1, (key 4).2]

theorem LoadKeys_trailing_space_witness :
    (LoadKeys (fun _ => some "10001\naabb \t\r\nff\n03\nccdd\n".toList) "mtpz-data"
      ⟨0, []⟩).1.toOption =
    (LoadKeys (fun _ => some "10001\naabb\nff\n03\nccdd\n".toList) "mtpz-data"
      ⟨0, []⟩).1.toOption :=
  LoadKeys_trailing_space _ _ "mtpz-data" ⟨0, []⟩ "10001\n".toList "aabb".toList
    " \t\r".toList [] "ff\n03\nccdd\n".toList true true (Or.inr ⟨"10001".toList, rfl⟩)
    (by decide) (by decide) (by decide) (by decide) (by decide) (Or.inr ⟨rfl, rfl⟩) rfl rfl

/-! ### C4: a file that cannot be opened -/

/-- C4. For every path at which the file cannot be opened, `LoadKeys` returns
the null pointer, throws nothing and touches no resource; the constructor of
`TrustedApp` then succeeds with no key material. -/
theorem LoadKeys_absent (fs : String → Option (List Char)) (path : String) (w : World)
    (session : Session) (h : fs path = none) :
    LoadKeys fs path w = (.ok none, w) ∧
      TrustedApp.new session fs path w = (.ok ⟨session, none⟩, w) := by
  have hl : LoadKeys fs path w = (.ok none, w) := by simp [LoadKeys, BIO_new_file, h]
  exact ⟨hl, by simp [TrustedApp.new, hl]⟩

theorem LoadKeys_absent_witness :
    LoadKeys (fun _ => none) "/nonexistent/.mtpz-data" ⟨0, []⟩ = (.ok none, ⟨0, []⟩) ∧
      TrustedApp.new ⟨⟨fun _ => false⟩, 10000, [], fun _ => false⟩ (fun _ => none)
          "/nonexistent/.mtpz-data" ⟨0, []⟩ =
        (.ok ⟨⟨⟨fun _ => false⟩, 10000, [], fun _ => false⟩, none⟩, ⟨0, []⟩) :=
  LoadKeys_absent (fun _ => none) "/nonexistent/.mtpz-data" ⟨0, []⟩
    ⟨⟨fun _ => false⟩, 10000, [], fun _ => false⟩ rfl

/-! ### C5: `Probe` -/

/-- C5. `Probe` returns true exactly when the five operations are all reported
supported; it returns false when exactly one of the five is missing; and it
depends on the support of no other operation. -/
theorem Probe_iff_all_five :
    (∀ s : Session, Probe s = true ↔
      (s.deviceInfo.Supports .SendWMDRMPDAppRequest = true ∧
       s.deviceInfo.Supports .GetWMDRMPDAppResponse = true ∧
       s.deviceInfo.Supports .EnableTrustedFilesOperations = true ∧
       s.deviceInfo.Supports .DisableTrustedFilesOperations = true ∧
       s.deviceInfo.Supports .EndTrustedAppSession = true)) ∧
    (∀ (s : Session) (missing : OperationCode),
      missing ∈ [OperationCode.SendWMDRMPDAppRequest, .GetWMDRMPDAppResponse,
        .EnableTrustedFilesOperations, .DisableTrustedFilesOperations,
        .EndTrustedAppSession] →
      Probe { s with deviceInfo := ⟨fun op => decide (op ≠ missing)⟩ } = false) ∧
    (∀ s s' : Session,
      (∀ op ∈ [OperationCode.SendWMDRMPDAppRequest, .GetWMDRMPDAppResponse,
        .EnableTrustedFilesOperations, .DisableTrustedFilesOperations,
        .EndTrustedAppSession], s.deviceInfo.Supports op = s'.deviceInfo.Supports op) →
      Probe s = Probe s') := by
  refine ⟨?_, ?_, ?_⟩
  · intro s
    simp [Probe, and_assoc]
  · intro s missing hm
    simp only [List.mem_cons, List.mem_singleton, List.not_mem_nil, or_false] at hm
    rcases hm with rfl | rfl | rfl | rfl | rfl <;> simp [Probe]
  · intro s s' h
    simp only [List.mem_cons, List.mem_singleton, List.not_mem_nil, or_false,
      forall_eq_or_imp, forall_eq] at h
    obtain ⟨h1, h2, h3, h4, h5⟩ := h
    simp [Probe, h1, h2, h3, h4, h5]

/-! ### C6: `Authenticate` -/

/-- C6. Whether key material is present or not, `Authenticate` issues exactly
one transaction, `EndTrustedAppSession` with the default timeout of the
session, and changes nothing else; when the transaction completes it returns
false, and it never returns true. -/
theorem Authenticate_teardown_only (app : TrustedApp) :
    (Authenticate app).2.session.transactions =
      (app.session.DefaultTimeout, OperationCode.EndTrustedAppSession) ::
        app.session.transactions ∧
    (Authenticate app).2.keys = app.keys ∧
    ((app.session.RunTransaction app.session.DefaultTimeout .EndTrustedAppSession).1 = .ok () →
      (Authenticate app).1 = .ok false) ∧
    (Authenticate app).1 ≠ .ok true := by
  simp only [Authenticate, Session.RunTransaction]
  split_ifs <;> simp

/-! ### C7: ownership of the three integers -/

theorem Update_balance (k : Keys) (w : World) (a : Nat) :
    releases a (k.Update w).2.2 + (k.Update w).2.1.owned.count a =
      releases a w + k.owned.count a := by
  obtain ⟨skey, exp, mod, pkey, ⟨ra, rn, re, rd⟩, cert⟩ := k
  cases exp <;> cases mod <;> cases pkey <;> cases rn <;> cases re <;> cases rd <;>
    simp [Keys.Update, RSA_set0_key, BN_free, World.emit, Keys.owned, releases,
      List.count_cons] <;> omega

theorem destroy_balance (k : Keys) (w : World) (a : Nat) :
    releases a (k.destroy w) = releases a w + k.owned.count a := by
  obtain ⟨skey, exp, mod, pkey, ⟨ra, rn, re, rd⟩, cert⟩ := k
  cases exp <;> cases mod <;> cases pkey <;> cases rn <;> cases re <;> cases rd <;>
    simp [Keys.destroy, RSA_free, BN_free, World.emit, Keys.owned, releases,
      List.count_cons] <;> omega

/-- Any number of `Update` calls and then the destructor release every
`BIGNUM` as often as the object holds it. -/
theorem updates_destroy_balance (j : Nat) (k : Keys) (w : World) (a : Nat) :
    releases a ((Keys.updates j k w).1.destroy (Keys.updates j k w).2) =
      releases a w + k.owned.count a := by
  induction j generalizing k w with
  | zero => exact destroy_balance k w a
  | succ j ih =>
    have := ih (k.Update w).2.1 (k.Update w).2.2
    rw [Update_balance] at this
    exact this

/-- C7. For every `Keys` whose three integers are loaded and that holds no
`BIGNUM` twice: `Update` succeeds, moves the three into the key object and
leaves the three slots empty; an `Update` that throws changes neither the
object nor the resources (and there are objects on which it throws); a second
`Update` changes nothing; and any number of `Update` calls followed by the
destructor release each of the three integers exactly once. -/
theorem Keys_ownership (k : Keys) (w : World) (e m p : BIGNUM)
    (he : k.exp = some e) (hm : k.mod = some m) (hp : k.pkey = some p)
    (hnodup : k.owned.Nodup) :
    (∃ w', k.Update w = (none, ⟨k.skey, none, none, none,
        ⟨k.rsa.addr, some m, some e, some p⟩, k.certificate⟩, w')) ∧
    (∀ (k0 : Keys) (w0 : World) (msg : String) (k1 : Keys) (w1 : World),
      k0.Update w0 = (some msg, k1, w1) → k1 = k0 ∧ w1 = w0) ∧
    (∃ msg, (Keys.new w).1.Update (Keys.new w).2 = (some msg, (Keys.new w).1, (Keys.new w).2)) ∧
    (∀ k1 w1, k.Update w = (none, k1, w1) → k1.Update w1 = (none, k1, w1)) ∧
    (∀ j, ∀ a ∈ [e.addr, m.addr, p.addr],
      releases a ((Keys.updates j k w).1.destroy (Keys.updates j k w).2) =
        releases a w + 1) := by
  refine ⟨?_, ?_, ?_, ?_, ?_⟩
  · simp [Keys.Update, RSA_set0_key, he, hm, hp]
  · intro k0 w0 msg k1 w1 h
    simp only [Keys.Update, RSA_set0_key] at h
    split_ifs at h with h1 h2 h2
    · simp at h2
    · simp only [Prod.mk.injEq] at h
      obtain ⟨-, hk, hw⟩ := h
      exact ⟨hk.symm, hw.symm⟩
    · simp at h
    · simp at h2
  · exact ⟨_, rfl⟩
  · intro k1 w1 h
    simp only [Keys.Update, RSA_set0_key, he, hm, hp] at h
    simp only [reduceCtorEq, and_false, or_self, if_false, Prod.mk.injEq, ne_eq,
      one_ne_zero, not_false_eq_true, if_true, true_and] at h
    obtain ⟨rfl, rfl⟩ := h
    simp [Keys.Update, RSA_set0_key]
  · intro j a ha
    rw [updates_destroy_balance]
    have hmem : a ∈ k.owned := by
      simp only [List.mem_cons, List.mem_singleton, List.not_mem_nil, or_false] at ha
      rcases ha with rfl | rfl | rfl <;> simp [Keys.owned, he, hm, hp]
    rw [List.count_eq_one_of_mem hnodup hmem]

theorem Keys_ownership_witness :
    releases 3 ((Keys.updates 2 ⟨[], some ⟨2, 0x10001⟩, some ⟨3, 0xFF⟩, some ⟨4, 3⟩,
        ⟨1, none, none, none⟩, []⟩ ⟨5, []⟩).1.destroy
      (Keys.updates 2 ⟨[], some ⟨2, 0x10001⟩, some ⟨3, 0xFF⟩, some ⟨4, 3⟩,
        ⟨1, none, none, none⟩, []⟩ ⟨5, []⟩).2) = releases 3 ⟨5, []⟩ + 1 :=
  (Keys_ownership ⟨[], some ⟨2, 0x10001⟩, some ⟨3, 0xFF⟩, some ⟨4, 3⟩, ⟨1, none, none, none⟩, []⟩
    ⟨5, []⟩ ⟨2, 0x10001⟩ ⟨3, 0xFF⟩ ⟨4, 3⟩ rfl rfl rfl (by decide)).2.2.2.2 2 3 (by decide)

/-! ### C8: the file handle -/

theorem bioEvents_cons_BN_new (a : Nat) (t : List Event) :
    bioEvents (.BN_new a :: t) = bioEvents t := rfl

theorem bioEvents_cons_RSA_new (a : Nat) (t : List Event) :
    bioEvents (.RSA_new a :: t) = bioEvents t := rfl

theorem bioEvents_cons_BIO_new (a : Nat) (t : List Event) :
    bioEvents (.BIO_new a :: t) = .BIO_new a :: bioEvents t := rfl

theorem bioEvents_cons_BIO_free (a : Nat) (t : List Event) :
    bioEvents (.BIO_free a :: t) = .BIO_free a :: bioEvents t := rfl

theorem bioEvents_destroy (k : Keys) (w : World) :
    bioEvents (k.destroy w).trace = bioEvents w.trace := by
  obtain ⟨skey, exp, mod, pkey, ⟨ra, rn, re, rd⟩, cert⟩ := k
  cases exp <;> cases mod <;> cases pkey <;> cases rn <;> cases re <;> cases rd <;> rfl

/-- C8. Whenever `LoadKeys` opens the file, the `BIO` events it adds to the
trace are the opening of the handle and, after it, one release of that handle,
whatever the content of the file and whether the function returns or throws. -/
theorem LoadKeys_releases_handle (fs : String → Option (List Char)) (path : String)
    (w : World) (content : List Char) (hfs : fs path = some content) :
    bioEvents (LoadKeys fs path w).2.trace =
      .BIO_free w.next :: .BIO_new w.next :: bioEvents w.trace := by
  simp only [LoadKeys, BIO_new_file, hfs, World.fresh, World.emit, Keys.new, RSA_new,
    LoadKeys.body, BIO_gets, Nat.reduceSub]
  generalize List.takeWhile (fun c => decide (c ≠ NUL)) (fgets 4095 content).1 = b1
  generalize List.takeWhile (fun c => decide (c ≠ NUL))
    (fgets 4095 (fgets 4095 content).2).1 = b2
  generalize List.takeWhile (fun c => decide (c ≠ NUL))
    (fgets 4095 (fgets 4095 (fgets 4095 content).2).2).1 = b3
  generalize List.takeWhile (fun c => decide (c ≠ NUL))
    (fgets 4095 (fgets 4095 (fgets 4095 (fgets 4095 content).2).2).2).1 = b4
  generalize List.takeWhile (fun c => decide (c ≠ NUL))
    (fgets 4095 (fgets 4095 (fgets 4095 (fgets 4095 (fgets 4095 content).2).2).2).2).1 = b5
  rw [BN_hex2bn_none]
  cases h1 : hexIntParse b1 with
  | none => simp [bioEvents_destroy, BIO_free, World.emit, bioEvents_cons_BN_new, bioEvents_cons_RSA_new,
      bioEvents_cons_BIO_new, bioEvents_cons_BIO_free]
  | some kv =>
    obtain ⟨k, v⟩ := kv
    have hk := hexIntParse_pos h1
    simp only [Nat.le_zero, Nat.ne_of_gt hk, if_false]
    by_cases h2 : b2.length = 0
    · simp [h2, bioEvents_destroy, BIO_free, World.emit, bioEvents_cons_BN_new,
      bioEvents_cons_RSA_new, bioEvents_cons_BIO_new, bioEvents_cons_BIO_free]
    · simp only [h2, if_false]
      cases h2b : Keys.FromHex b2 b2.length with
      | error m => simp [bioEvents_destroy, BIO_free, World.emit, bioEvents_cons_BN_new, bioEvents_cons_RSA_new,
      bioEvents_cons_BIO_new, bioEvents_cons_BIO_free]
      | ok sk =>
        simp only []
        rw [BN_hex2bn_none]
        cases h3 : hexIntParse b3 with
        | none => simp [bioEvents_destroy, BIO_free, World.emit, bioEvents_cons_BN_new, bioEvents_cons_RSA_new,
      bioEvents_cons_BIO_new, bioEvents_cons_BIO_free]
        | some kv3 =>
          obtain ⟨k3, v3⟩ := kv3
          have hk3 := hexIntParse_pos h3
          simp only [Nat.ne_of_gt hk3, if_false]
          rw [BN_hex2bn_none]
          cases h4 : hexIntParse b4 with
          | none => simp [bioEvents_destroy, BIO_free, World.emit, bioEvents_cons_BN_new, bioEvents_cons_RSA_new,
      bioEvents_cons_BIO_new, bioEvents_cons_BIO_free]
          | some kv4 =>
            obtain ⟨k4, v4⟩ := kv4
            have hk4 := hexIntParse_pos h4
            simp only [Nat.ne_of_gt hk4, if_false]
            by_cases h5 : b5.length = 0
            · simp [h5, bioEvents_destroy, BIO_free, World.emit, bioEvents_cons_BN_new,
      bioEvents_cons_RSA_new, bioEvents_cons_BIO_new, bioEvents_cons_BIO_free]
            · simp only [h5, if_false]
              cases h5b : Keys.FromHex b5 b5.length with
              | error m => simp [bioEvents_destroy, BIO_free, World.emit, bioEvents_cons_BN_new, bioEvents_cons_RSA_new,
      bioEvents_cons_BIO_new, bioEvents_cons_BIO_free]
              | ok cert =>
                simp [Keys.Update, RSA_set0_key, BN_free, BIO_free, World.emit, bioEvents_cons_BN_new,
                  bioEvents_cons_RSA_new, bioEvents_cons_BIO_new, bioEvents_cons_BIO_free]

theorem LoadKeys_releases_handle_witness :
    bioEvents (LoadKeys (fun _ => some "10001\naabb\nzz\n03\nccdd\n".toList) "mtpz-data"
      ⟨0, []⟩).2.trace = [.BIO_free 0, .BIO_new 0] :=
  LoadKeys_releases_handle _ "mtpz-data" ⟨0, []⟩ _ rfl

end mtp
